import Mathlib

/-!
# Verification of the aiboard-cli persistence engine

Shallow embedding of the SQLite-backed persistence engine of the
`aiboard-cli` repository (`src/infra/sqlite.rs`, `src/usecase/cleanup.rs`,
`src/usecase/thread.rs`, `src/domain/entity.rs`, `src/domain/error.rs`).

Modelling conventions:
* The database state is an explicit `Store` value (a list of thread rows
  and a list of message rows); every mutating repository operation is a
  function from the old store to a result together with the new store.
* UTC instants are modelled as `Int` numbers of seconds.  The source
  persists datetimes with `format_datetime` using the pattern
  `%Y-%m-%d %H:%M:%S` (second precision) and SQLite compares the stored
  strings lexicographically, which for this fixed-width format agrees
  with chronological order; the `Int` order is therefore a faithful
  image of the order actually used by the SQL comparisons.
* SQLite's `LIKE` operator is embedded by `likeM` below, following the
  documented semantics: `%` matches any sequence, `_` matches a single
  character, ordinary characters compare ASCII-case-insensitively
  (SQLite folds only `A`–`Z` by default, and the source never issues
  `PRAGMA case_sensitive_like`), and with an `ESCAPE '\'` clause a
  backslash forces the next pattern character to be matched literally.
-/

namespace Aiboard

/-- SQLite's default case folding for `LIKE`: only ASCII `A`–`Z` are
folded to lower case. -/
def asciiLower (c : Char) : Char :=
  if 'A' ≤ c ∧ c ≤ 'Z' then Char.ofNat (c.toNat + 32) else c

/-- Character comparison used by SQLite `LIKE` for ordinary pattern
characters: equal after ASCII case folding. -/
def charLikeEq (p c : Char) : Bool :=
  asciiLower p == asciiLower c

/-- All suffixes of a character list, longest first (including the list
itself and the empty suffix). -/
def suffixes : List Char → List (List Char)
  | [] => [[]]
  | c :: cs => (c :: cs) :: suffixes cs

/-- The atoms of a `LIKE` pattern: the `%` wildcard, the `_` wildcard,
an ordinary character, or an unmatchable remainder (a dangling escape
character at the end of the pattern, which no subject satisfies). -/
inductive LikeTok
  | pct
  | uscore
  | lit (c : Char)
  | fail
deriving Repr, DecidableEq

/-- Tokenisation of a `LIKE` pattern.  With `esc = true` (an
`ESCAPE '\'` clause) a backslash makes the following pattern character
an ordinary one; with `esc = false` a backslash is itself ordinary. -/
def likeTokens (esc : Bool) : List Char → List LikeTok
  | [] => []
  | [p] =>
      if p = '%' then [.pct]
      else if p = '_' then [.uscore]
      else if esc && p = '\\' then [.fail]
      else [.lit p]
  | p :: q :: ps =>
      if p = '%' then .pct :: likeTokens esc (q :: ps)
      else if p = '_' then .uscore :: likeTokens esc (q :: ps)
      else if esc && p = '\\' then .lit q :: likeTokens esc ps
      else .lit p :: likeTokens esc (q :: ps)

/-- Running a tokenised `LIKE` pattern against a subject: `%` matches
any sequence of zero or more characters (some suffix of the subject
matches the rest), `_` matches exactly one character, and an ordinary
character compares ASCII-case-insensitively. -/
def likeRun (ts : List LikeTok) : List Char → Bool :=
  List.rec (motive := fun _ => List Char → Bool)
    (fun s => s.isEmpty)
    (fun t _ rec =>
      match t with
      | .pct => fun s => (suffixes s).any rec
      | .uscore => fun s =>
          match s with
          | [] => false
          | _ :: s' => rec s'
      | .lit c => fun s =>
          match s with
          | [] => false
          | d :: s' => charLikeEq c d && rec s'
      | .fail => fun _ => false)
    ts

/-- SQLite `LIKE` pattern matching on character lists: tokenise the
pattern, then run it. -/
def likeM (esc : Bool) (ps s : List Char) : Bool :=
  likeRun (likeTokens esc ps) s

/-- `LIKE` on strings, with an `ESCAPE '\'` clause. -/
def sqlLikeEsc (pattern s : String) : Bool :=
  likeM true pattern.data s.data

/-- `LIKE` on strings, without an `ESCAPE` clause. -/
def sqlLike (pattern s : String) : Bool :=
  likeM false pattern.data s.data

/-- The escaping performed by `search_like` and `find_mentions`:
`q.replace('\\',"\\\\").replace('%',"\\%").replace('_',"\\_")`.
Because the three replacements are applied in this order (backslashes
first), the composite is equivalent to this single character-wise pass. -/
def escapeChars : List Char → List Char
  | [] => []
  | c :: cs =>
      if c = '\\' ∨ c = '%' ∨ c = '_' then '\\' :: c :: escapeChars cs
      else c :: escapeChars cs

def escapeLike (s : String) : String :=
  ⟨escapeChars s.data⟩

example : escapeLike "100%" = "100\\%" := by decide
example : sqlLikeEsc ("%" ++ escapeLike "100%" ++ "%") "costs 100% done" = true := by decide
example : sqlLike ("a" ++ "%") "abc" = true := by decide
example : sqlLike ("A" ++ "%") "abc" = true := by decide
example : sqlLike ("a_c" ++ "%") "axc" = true := by decide
example : sqlLike ("ax" ++ "%") "abc" = false := by decide

/-! ## Domain entities (`src/domain/entity.rs`, `src/domain/error.rs`) -/

/-- `enum Role` from `src/domain/entity.rs`. -/
inductive Role
  | user
  | assistant
  | system
  | tool
deriving Repr, DecidableEq

/-- `impl Display for Role` (`to_string`). -/
def Role.render : Role → String
  | .user => "user"
  | .assistant => "assistant"
  | .system => "system"
  | .tool => "tool"

/-- ASCII lower-casing of a string, the image of Rust's `to_lowercase()`
on the ASCII role names the parser compares against. -/
def strAsciiLower (s : String) : String :=
  ⟨s.data.map asciiLower⟩

/-- `impl FromStr for Role`: lower-cases the input and matches the four
role names, returning an error (here `none`) otherwise. -/
def parseRole (s : String) : Option Role :=
  match strAsciiLower s with
  | "user" => some .user
  | "assistant" => some .assistant
  | "system" => some .system
  | "tool" => some .tool
  | _ => none

/-- JSON values, the image of `serde_json::Value`.  Numbers are
restricted to integers: the claims under verification never depend on
fractional numeric payloads, only on whether a stored string parses at
all. -/
inductive Json
  | null
  | bool (b : Bool)
  | num (n : Int)
  | str (s : String)
  | arr (elems : List Json)
  | obj (fields : List (String × Json))
deriving Repr

/-- Typed errors, `enum DomainError` from `src/domain/error.rs`
(the variants the persistence engine produces). -/
inductive DomainError
  | threadNotFound (id : String)
  | messageNotFound (id : String)
  | ambiguousShortId (id : String) (count : Nat)
  | database (msg : String)
  | invalidInput (msg : String)
deriving Repr, DecidableEq

/-! ## A small JSON parser, the image of `serde_json::from_str`

The parser recognises the JSON subset matching the `Json` type above
(integer numbers; strings without escape sequences).  It is fuel-indexed
for structural termination; `parseJson` supplies fuel bounded by the
input length, which suffices because every recursive call consumes at
least one character. -/

def skipWs : List Char → List Char
  | ' ' :: cs => skipWs cs
  | '\t' :: cs => skipWs cs
  | '\n' :: cs => skipWs cs
  | '\r' :: cs => skipWs cs
  | cs => cs

def parseStringLit : List Char → Option (String × List Char) :=
  go []
where
  go (acc : List Char) : List Char → Option (String × List Char)
    | [] => none
    | '"' :: cs => some (⟨acc.reverse⟩, cs)
    | '\\' :: _ => none
    | c :: cs => go (c :: acc) cs

def parseDigits (acc : Nat) : List Char → (Nat × List Char)
  | c :: cs =>
      if c.isDigit then parseDigits (acc * 10 + (c.toNat - '0'.toNat)) cs
      else (acc, c :: cs)
  | [] => (acc, [])

mutual

def parseVal : Nat → List Char → Option (Json × List Char)
  | 0, _ => none
  | fuel + 1, cs =>
    match skipWs cs with
    | 'n' :: 'u' :: 'l' :: 'l' :: rest => some (.null, rest)
    | 't' :: 'r' :: 'u' :: 'e' :: rest => some (.bool true, rest)
    | 'f' :: 'a' :: 'l' :: 's' :: 'e' :: rest => some (.bool false, rest)
    | '"' :: rest => (parseStringLit rest).map (fun p => (.str p.1, p.2))
    | '[' :: rest =>
        (match skipWs rest with
         | ']' :: r => some (.arr [], r)
         | rest' => (parseElems fuel rest').map (fun p => (.arr p.1, p.2)))
    | '{' :: rest =>
        (match skipWs rest with
         | '}' :: r => some (.obj [], r)
         | rest' => (parseFields fuel rest').map (fun p => (.obj p.1, p.2)))
    | '-' :: c :: rest =>
        if c.isDigit then
          let p := parseDigits (c.toNat - '0'.toNat) rest
          some (.num (-(p.1 : Int)), p.2)
        else none
    | c :: rest =>
        if c.isDigit then
          let p := parseDigits (c.toNat - '0'.toNat) rest
          some (.num (p.1 : Int), p.2)
        else none
    | [] => none

def parseElems : Nat → List Char → Option (List Json × List Char)
  | 0, _ => none
  | fuel + 1, cs =>
    match parseVal fuel cs with
    | none => none
    | some (v, rest) =>
      match skipWs rest with
      | ',' :: rest' => (parseElems fuel rest').map (fun p => (v :: p.1, p.2))
      | ']' :: rest' => some ([v], rest')
      | _ => none

def parseFields : Nat → List Char → Option (List (String × Json) × List Char)
  | 0, _ => none
  | fuel + 1, cs =>
    match skipWs cs with
    | '"' :: rest =>
      (match parseStringLit rest with
       | none => none
       | some (k, rest1) =>
         match skipWs rest1 with
         | ':' :: rest2 =>
           (match parseVal fuel rest2 with
            | none => none
            | some (v, rest3) =>
              match skipWs rest3 with
              | ',' :: rest4 => (parseFields fuel rest4).map (fun p => ((k, v) :: p.1, p.2))
              | '}' :: rest4 => some ([(k, v)], rest4)
              | _ => none)
         | _ => none)
    | _ => none

end

/-- The image of `serde_json::from_str::<serde_json::Value>` on the JSON
subset of `Json`: parse one value and require that only whitespace
remains. -/
def parseJson (s : String) : Option Json :=
  match parseVal (s.length + 2) s.data with
  | some (v, rest) => if (skipWs rest).isEmpty then some v else none
  | none => none

-- Rendering, the image of `serde_json::to_string`.
mutual

def Json.render : Json → String
  | .null => "null"
  | .bool true => "true"
  | .bool false => "false"
  | .num n => toString n
  | .str s => "\"" ++ s ++ "\""
  | .arr elems => "[" ++ Json.renderList elems ++ "]"
  | .obj fields => "\x7b" ++ Json.renderFields fields ++ "\x7d"

def Json.renderList : List Json → String
  | [] => ""
  | [v] => v.render
  | v :: rest => v.render ++ "," ++ Json.renderList rest

def Json.renderFields : List (String × Json) → String
  | [] => ""
  | [(k, v)] => "\"" ++ k ++ "\":" ++ v.render
  | (k, v) :: rest => "\"" ++ k ++ "\":" ++ v.render ++ "," ++ Json.renderFields rest

end

/-! ## Entities, rows, and the store state

`Message`/`Thread` are the domain entities (`src/domain/entity.rs`);
`MessageRow`/`ThreadRow` are their persisted images: the columns of the
`messages`/`threads` tables as the SQL statements in
`src/infra/sqlite.rs` read and write them (`role` stored as text via
`Display`, `metadata` stored as JSON text, datetimes stored at second
precision, modelled as `Int` UTC seconds). -/

structure Message where
  id : String
  thread_id : String
  session_id : Option String
  sender : Option String
  role : Role
  content : String
  metadata : Option Json
  parent_id : Option String
  source : Option String
  created_at : Int
  updated_at : Int

structure MessageRow where
  id : String
  thread_id : String
  session_id : Option String
  sender : Option String
  role : String
  content : String
  metadata : Option String
  parent_id : Option String
  source : Option String
  created_at : Int
  updated_at : Int
deriving Repr, DecidableEq

structure ThreadRow where
  id : String
  name : Option String
  title : String
  source_url : Option String
  created_at : Int
  updated_at : Int
deriving Repr, DecidableEq

/-- The database state: the `threads` and `messages` tables, rows in
insertion order. -/
structure Store where
  threads : List ThreadRow
  messages : List MessageRow
deriving Repr, DecidableEq

/-- `SqliteMessageRepository::row_to_message`: reads a row back into the
entity.  An unparseable stored role falls back to `Role::User`
(`unwrap_or(Role::User)`); stored metadata that fails to parse as JSON
becomes `None` (`serde_json::from_str(&s).ok()`).  The datetime columns
are modelled as already-parsed instants (`Int`), so the fallibility of
`parse_datetime` on corrupted datetime text is outside this model. -/
def rowToMessage (r : MessageRow) : Message :=
  { id := r.id
    thread_id := r.thread_id
    session_id := r.session_id
    sender := r.sender
    role := (parseRole r.role).getD .user
    content := r.content
    metadata := r.metadata.bind (fun s => parseJson s)
    parent_id := r.parent_id
    source := r.source
    created_at := r.created_at
    updated_at := r.updated_at }

/-- The row written by `SqliteMessageRepository::insert`: `role` via
`Display`, `metadata` via `serde_json::to_string` (which cannot fail on
a `Value`, so the `unwrap_or("{}")` arm is unreachable). -/
def Message.toRow (m : Message) : MessageRow :=
  { id := m.id
    thread_id := m.thread_id
    session_id := m.session_id
    sender := m.sender
    role := m.role.render
    content := m.content
    metadata := m.metadata.map Json.render
    parent_id := m.parent_id
    source := m.source
    created_at := m.created_at
    updated_at := m.updated_at }

/-! ## Result ordering

`ORDER BY created_at DESC` (resp. `ASC`) on the filtered rows, realised
as an insertion sort.  SQLite leaves the relative order of ties
unspecified; this sort picks one deterministic refinement of it.  The
claims under verification are about result membership, which is
order-independent. -/

def insertDesc (r : MessageRow) : List MessageRow → List MessageRow
  | [] => [r]
  | x :: xs => if x.created_at < r.created_at then r :: x :: xs else x :: insertDesc r xs

def sortDesc : List MessageRow → List MessageRow
  | [] => []
  | r :: rs => insertDesc r (sortDesc rs)

def insertAsc (r : MessageRow) : List MessageRow → List MessageRow
  | [] => [r]
  | x :: xs => if r.created_at < x.created_at then r :: x :: xs else x :: insertAsc r xs

def sortAsc : List MessageRow → List MessageRow
  | [] => []
  | r :: rs => insertAsc r (sortAsc rs)

/-! ## Message repository (`SqliteMessageRepository`) -/

/-- Modelled from the spec: the migration files (`migrations/v001.sql`,
`v002.sql`) defining the table schemas are not among the provided
sources.  The spec's data model declares the message `id` a globally
unique identifier, which the schema realises as a primary key, so the
store rejects an insert whose `id` collides with an existing row. -/
def insertViolatesUnique (m : Message) (st : Store) : Bool :=
  st.messages.any (fun r => r.id == m.id)

/-- `SqliteMessageRepository::insert`: a single-row `INSERT`.  The
failure mode modelled is the uniqueness violation on `messages.id`
(see `insertViolatesUnique`); the error wraps the native message text
exactly as `map_err` does. -/
def insertMessage (m : Message) (st : Store) : Except DomainError Store :=
  if insertViolatesUnique m st then
    .error (.database "failed to insert message: UNIQUE constraint failed: messages.id")
  else
    .ok { st with messages := st.messages ++ [m.toRow] }

/-- `messages.iter().try_for_each(|msg| self.insert(msg))`: sequential
inserts, stopping at (and returning) the first error. -/
def insertAll (msgs : List Message) (st : Store) : Except DomainError Store :=
  match msgs with
  | [] => .ok st
  | m :: rest =>
    match insertMessage m st with
    | .ok st' => insertAll rest st'
    | .error e => .error e

/-- `SqliteMessageRepository::insert_batch`: `BEGIN IMMEDIATE`, insert
every message, `COMMIT` on success (returning the batch length) or
`ROLLBACK` on the first failure (restoring the pre-transaction state and
returning the original error; the rollback's own result is discarded). -/
def insertBatch (msgs : List Message) (st : Store) : Except DomainError Nat × Store :=
  match insertAll msgs st with
  | .ok st' => (.ok msgs.length, st')
  | .error e => (.error e, st)

/-- `SqliteMessageRepository::resolve_short_id`: collects the ids
matching `LIKE '{short_id}%'` (no `ESCAPE` clause) and dispatches on how
many there are. -/
def resolveShortIdMessage (st : Store) (short_id : String) : Except DomainError String :=
  let pattern := short_id ++ "%"
  let ids := (st.messages.filter (fun r => sqlLike pattern r.id)).map (fun r => r.id)
  match ids with
  | [] => .error (.messageNotFound short_id)
  | [i] => .ok i
  | _ => .error (.ambiguousShortId short_id ids.length)

/-- `SqliteMessageRepository::find_by_id`: `WHERE id = ?1`, first row or
`None`. -/
def findMessageById (id : String) (st : Store) : Option Message :=
  (st.messages.find? (fun r => r.id == id)).map rowToMessage

/-- `SqliteMessageRepository::find_by_thread`: `WHERE thread_id = ?1
ORDER BY created_at ASC`. -/
def findByThread (thread_id : String) (st : Store) : List Message :=
  (sortAsc (st.messages.filter (fun r => r.thread_id == thread_id))).map rowToMessage

/-- `SqliteMessageRepository::list_recent`: `ORDER BY created_at DESC
LIMIT ?1`. -/
def listRecent (limit : Nat) (st : Store) : List Message :=
  ((sortDesc st.messages).take limit).map rowToMessage

/-- Whether a row passes the optional thread filter (`AND thread_id = ?2`
when a thread id is supplied). -/
def threadFilter (thread_id : Option String) (r : MessageRow) : Bool :=
  match thread_id with
  | some tid => r.thread_id == tid
  | none => true

/-- `SqliteMessageRepository::search_like`: escape the query, wrap it in
`%…%`, and run `content LIKE ?1 ESCAPE '\'` with the optional thread
filter, most recent first. -/
def searchLike (query : String) (thread_id : Option String) (st : Store) : List Message :=
  let pattern := "%" ++ escapeLike query ++ "%"
  let rows := st.messages.filter
    (fun r => sqlLikeEsc pattern r.content && threadFilter thread_id r)
  (sortDesc rows).map rowToMessage

/-- `SqliteMessageRepository::update_content`: `UPDATE messages SET
content = ?1, updated_at = ?2 WHERE id = ?3`; zero affected rows means
`MessageNotFound`. -/
def updateContent (id content : String) (now : Int) (st : Store) :
    Except DomainError Unit × Store :=
  let affected := st.messages.countP (fun r => r.id == id)
  let st' : Store :=
    { st with
      messages := st.messages.map
        (fun r => if r.id == id then { r with content := content, updated_at := now } else r) }
  if affected == 0 then (.error (.messageNotFound id), st')
  else (.ok (), st')

/-- `SqliteMessageRepository::delete_by_thread`: returns the number of
rows removed. -/
def deleteByThread (thread_id : String) (st : Store) : Nat × Store :=
  (st.messages.countP (fun r => r.thread_id == thread_id),
   { st with messages := st.messages.filter (fun r => !(r.thread_id == thread_id)) })

/-- `SqliteMessageRepository::delete_by_session`: `WHERE session_id = ?1`
(a SQL equality, which a NULL `session_id` never satisfies). -/
def deleteBySession (session_id : String) (st : Store) : Nat × Store :=
  (st.messages.countP (fun r => r.session_id == some session_id),
   { st with messages := st.messages.filter (fun r => !(r.session_id == some session_id)) })

/-- `SqliteMessageRepository::delete_older_than`: strict `created_at <
cutoff`, returning the number of rows removed.  The formatted cutoff and
the stored datetimes compare as their second-precision instants do. -/
def deleteOlderThan (before : Int) (st : Store) : Nat × Store :=
  (st.messages.countP (fun r => r.created_at < before),
   { st with messages := st.messages.filter (fun r => !(r.created_at < before)) })

/-! ## Mention detection -/

/-- The word-character class terminating a mention: alphanumeric or
underscore.  Rust's `char::is_alphanumeric` is Unicode-wide; the model
uses the ASCII classification, and the specification-side
characterisation below uses the same class, so code and spec are
compared over a common boundary class. -/
def isWordChar (c : Char) : Bool :=
  c.isAlphanum || c == '_'

/-- `str::find`: index of the first occurrence of `needle`, if any. -/
def firstOccur (needle : List Char) : List Char → Option Nat
  | [] => if needle.isEmpty then some 0 else none
  | c :: rest =>
      if needle.isPrefixOf (c :: rest) then some 0
      else (firstOccur needle rest).map (fun i => i + 1)

/-- The scanning loop of `filter_mention_boundary`, fuel-indexed for
structural termination: find the next occurrence of `mention`; accept if
it ends the content or is followed by a non-word character; otherwise
resume one position past the occurrence's start.  Each iteration drops
at least one character, so `content.length + 1` fuel always suffices. -/
def mentionLoopFuel (mention : List Char) : Nat → List Char → Bool
  | 0, _ => false
  | fuel + 1, content =>
    match firstOccur mention content with
    | none => false
    | some pos =>
        if content.length ≤ pos + mention.length then true
        else if !(isWordChar (content.getD (pos + mention.length) ' ')) then true
        else mentionLoopFuel mention fuel (content.drop (pos + 1))

def mentionLoop (mention content : List Char) : Bool :=
  mentionLoopFuel mention (content.length + 1) content

/-- One message's boundary confirmation inside
`SqliteMessageRepository::filter_mention_boundary`, with
`mention = "@" + mention_target`. -/
def hasMentionBoundary (mention_target : String) (content : String) : Bool :=
  mentionLoop ('@' :: mention_target.data) content.data

/-- `SqliteMessageRepository::filter_mention_boundary`. -/
def filterMentionBoundary (messages : List Message) (mention_target : String) : List Message :=
  messages.filter (fun msg => hasMentionBoundary mention_target msg.content)

/-- `SqliteMessageRepository::find_mentions`: over-approximate `LIKE`
pre-filter for `%@{escaped target}%` (with the optional thread filter,
most recent first), then exact boundary confirmation. -/
def findMentions (thread_id : Option String) (mention_target : String) (st : Store) :
    List Message :=
  let pattern := "%@" ++ escapeLike mention_target ++ "%"
  let rows := st.messages.filter
    (fun r => sqlLikeEsc pattern r.content && threadFilter thread_id r)
  filterMentionBoundary ((sortDesc rows).map rowToMessage) mention_target

/-- `SqliteMessageRepository::count_mentions`. -/
def countMentions (thread_id : Option String) (mention_target : String) (st : Store) : Nat :=
  (findMentions thread_id mention_target st).length

/-! ## Thread repository (`SqliteThreadRepository`) -/

/-- `SqliteThreadRepository::resolve_short_id`: identical dispatch to the
message version, over the `threads` table. -/
def resolveShortIdThread (st : Store) (short_id : String) : Except DomainError String :=
  let pattern := short_id ++ "%"
  let ids := (st.threads.filter (fun t => sqlLike pattern t.id)).map (fun t => t.id)
  match ids with
  | [] => .error (.threadNotFound short_id)
  | [i] => .ok i
  | _ => .error (.ambiguousShortId short_id ids.length)

/-- `SqliteThreadRepository::delete`: `DELETE FROM threads WHERE id =
?1`; zero affected rows means `ThreadNotFound`.  Only the `threads`
table is touched. -/
def threadDelete (id : String) (st : Store) : Except DomainError Unit × Store :=
  let affected := st.threads.countP (fun t => t.id == id)
  let st' : Store := { st with threads := st.threads.filter (fun t => !(t.id == id)) }
  if affected == 0 then (.error (.threadNotFound id), st')
  else (.ok (), st')

/-! ## Cleanup use case (`src/usecase/cleanup.rs`) -/

/-- Seconds per day: `Duration::days(days)` in the seconds model. -/
def secondsPerDay : Int := 86400

/-- `CleanupUseCase::by_age`: cutoff `now - days`, then
`delete_older_than`.  `Utc::now()` is threaded as the explicit `now`
parameter. -/
def cleanupByAge (days : Int) (now : Int) (st : Store) : Nat × Store :=
  deleteOlderThan (now - days * secondsPerDay) st

/-- `CleanupUseCase::by_thread`: delete the thread's messages, then the
thread itself; the thread-deletion failure aborts with its error (the
messages are already gone — the accepted non-atomic composition). -/
def cleanupByThread (thread_id : String) (st : Store) : Except DomainError Nat × Store :=
  let r := deleteByThread thread_id st
  match threadDelete thread_id r.2 with
  | (.ok _, st2) => (.ok r.1, st2)
  | (.error e, st2) => (.error e, st2)

/-- `CleanupUseCase::by_session`. -/
def cleanupBySession (session_id : String) (st : Store) : Nat × Store :=
  deleteBySession session_id st

/-! ## Specification-side characterisations

These definitions follow the words of the specification (not the
source); the claim theorems relate them to the source-derived
definitions above. -/

/-- Case-sensitive literal prefix: the spec's reading of "starts with
prefix p character for character". -/
def litPrefix : List Char → List Char → Bool
  | [], _ => true
  | _ :: _, [] => false
  | c :: p, d :: s => c = d && litPrefix p s

/-- ASCII-case-insensitive literal prefix. -/
def ciPrefix : List Char → List Char → Bool
  | [], _ => true
  | _ :: _, [] => false
  | c :: p, d :: s => charLikeEq c d && ciPrefix p s

/-- ASCII-case-insensitive equality of character lists. -/
def ciEq : List Char → List Char → Bool
  | [], [] => true
  | c :: p, d :: s => charLikeEq c d && ciEq p s
  | _, _ => false

/-- Case-sensitive "contains" — the spec's reading of a literal
substring match. -/
def csContains (needle hay : List Char) : Bool :=
  (suffixes hay).any (fun s => litPrefix needle s)

/-- ASCII-case-insensitive "contains". -/
def ciContains (needle hay : List Char) : Bool :=
  (suffixes hay).any (fun s => ciPrefix needle s)

/-- A word-boundary-terminated occurrence of `mention` at the head of
`rest`: `mention` is a prefix, and what follows it is either nothing or
a non-word character.  This is the claim's boundary condition. -/
def boundaryOkAt (mention rest : List Char) : Bool :=
  mention.isPrefixOf rest &&
    (match rest.drop mention.length with
     | [] => true
     | c :: _ => !(isWordChar c))

/-- The claim's characterisation of a mention of `target` inside
`content`: at some position, `@` immediately followed by the target,
with the following character absent or neither alphanumeric nor
underscore. -/
def specMention (target content : String) : Prop :=
  ∃ i, boundaryOkAt ('@' :: target.data) (content.data.drop i) = true

section SanityChecks

example : hasMentionBoundary "alice" "hi @alice!" = true := by decide
example : hasMentionBoundary "alice" "hi @alicex" = false := by decide
example : hasMentionBoundary "alice" "ping @alice" = true := by decide
example : hasMentionBoundary "alice" "hi @alice_bot" = false := by decide
example : hasMentionBoundary "alice" "@alicex then @alice!" = true := by decide
example : parseJson "\x7b\"a\": [1, -2, null]\x7d" =
    some (.obj [("a", .arr [.num 1, .num (-2), .null])]) := rfl
example : parseJson "not json" = none := rfl
example : parseRole "assistant" = some .assistant := by decide
example : parseRole "Tool" = some .tool := by decide
example : parseRole "banana" = none := by decide

end SanityChecks

/-! ## Lemmas: suffixes and `LIKE` matching -/

theorem drop_mem_suffixes (l : List Char) (i : Nat) : l.drop i ∈ suffixes l := by
  induction l generalizing i with
  | nil => simp [suffixes]
  | cons c cs ih =>
      cases i with
      | zero => simp [suffixes]
      | succ j =>
          simp only [List.drop_succ_cons, suffixes, List.mem_cons]
          exact Or.inr (ih j)

theorem mem_suffixes_eq_drop {l s : List Char} (h : s ∈ suffixes l) : ∃ i, s = l.drop i := by
  induction l with
  | nil =>
      simp [suffixes] at h
      exact ⟨0, by simp [h]⟩
  | cons c cs ih =>
      simp only [suffixes, List.mem_cons] at h
      rcases h with h | h
      · exact ⟨0, by simp [h]⟩
      · obtain ⟨i, hi⟩ := ih h
        exact ⟨i + 1, by simp [List.drop_succ_cons, hi]⟩

theorem likeRun_nil (s : List Char) : likeRun [] s = s.isEmpty := rfl

theorem likeRun_pct (ts : List LikeTok) (s : List Char) :
    likeRun (.pct :: ts) s = (suffixes s).any (fun s' => likeRun ts s') := rfl

theorem likeRun_lit (c : Char) (ts : List LikeTok) (s : List Char) :
    likeRun (.lit c :: ts) s =
      (match s with
       | [] => false
       | d :: s' => charLikeEq c d && likeRun ts s') := rfl

theorem likeTokens_pct (esc : Bool) (ps : List Char) :
    likeTokens esc ('%' :: ps) = .pct :: likeTokens esc ps := by
  cases ps <;> simp [likeTokens]

theorem likeTokens_lit_noesc {c : Char} (hp : c ≠ '%') (hu : c ≠ '_') (ps : List Char) :
    likeTokens false (c :: ps) = .lit c :: likeTokens false ps := by
  cases ps <;> simp [likeTokens, hp, hu]

theorem likeTokens_lit_esc {c : Char} (hp : c ≠ '%') (hu : c ≠ '_') (hb : c ≠ '\\')
    (ps : List Char) :
    likeTokens true (c :: ps) = .lit c :: likeTokens true ps := by
  cases ps <;> simp [likeTokens, hp, hu, hb]

theorem likeTokens_escape (c : Char) (ps : List Char) :
    likeTokens true ('\\' :: c :: ps) = .lit c :: likeTokens true ps := by
  simp [likeTokens]

/-- The escaped image of `q` tokenises to literal tokens for exactly the
characters of `q`. -/
theorem likeTokens_escapeChars (q rest : List Char) :
    likeTokens true (escapeChars q ++ rest) =
      q.map .lit ++ likeTokens true rest := by
  induction q with
  | nil => simp [escapeChars]
  | cons c q' ih =>
      by_cases hc : c = '\\' ∨ c = '%' ∨ c = '_'
      · rw [escapeChars, if_pos hc]
        simp only [List.cons_append, List.map_cons]
        rw [likeTokens_escape, ih]
      · push_neg at hc
        rw [escapeChars, if_neg (by tauto)]
        simp only [List.cons_append, List.map_cons]
        rw [likeTokens_lit_esc hc.2.1 hc.2.2 hc.1, ih]

/-- A wildcard-free prefix tokenises (without an escape clause) to its
literal tokens. -/
theorem likeTokens_wildcardFree {p : List Char} (hw : ∀ c ∈ p, c ≠ '%' ∧ c ≠ '_')
    (rest : List Char) :
    likeTokens false (p ++ rest) = p.map .lit ++ likeTokens false rest := by
  induction p with
  | nil => simp
  | cons c p' ih =>
      have hc := hw c (by simp)
      simp only [List.cons_append, List.map_cons]
      rw [likeTokens_lit_noesc hc.1 hc.2, ih (fun x hx => hw x (by simp [hx]))]

theorem likeRun_pct_iff (ts : List LikeTok) (s : List Char) :
    likeRun (.pct :: ts) s = true ↔ ∃ i, likeRun ts (s.drop i) = true := by
  rw [likeRun_pct, List.any_eq_true]
  constructor
  · rintro ⟨s', hs', h⟩
    obtain ⟨i, hi⟩ := mem_suffixes_eq_drop hs'
    exact ⟨i, hi ▸ h⟩
  · rintro ⟨i, h⟩
    exact ⟨s.drop i, drop_mem_suffixes s i, h⟩

theorem likeRun_pct_end (s : List Char) : likeRun [.pct] s = true := by
  rw [likeRun_pct_iff]
  exact ⟨s.length, by simp [likeRun_nil]⟩

theorem charLikeEq_refl (c : Char) : charLikeEq c c = true := by
  simp [charLikeEq]

theorem ciEq_refl (l : List Char) : ciEq l l = true := by
  induction l with
  | nil => rfl
  | cons c cs ih => simp [ciEq, charLikeEq_refl, ih]

theorem ciPrefix_append_of_ciEq {q m : List Char} (h : ciEq q m = true) (t : List Char) :
    ciPrefix q (m ++ t) = true := by
  induction q generalizing m with
  | nil => simp [ciPrefix]
  | cons c p ih =>
      cases m with
      | nil => simp [ciEq] at h
      | cons d s =>
          simp only [ciEq, Bool.and_eq_true] at h
          simpa [ciPrefix, h.1] using ih h.2 (m := s)

theorem ciPrefix_exists_split {q s : List Char} (h : ciPrefix q s = true) :
    ∃ m t, s = m ++ t ∧ ciEq q m = true := by
  induction q generalizing s with
  | nil => exact ⟨[], s, rfl, rfl⟩
  | cons c p ih =>
      cases s with
      | nil => simp [ciPrefix] at h
      | cons d s' =>
          simp only [ciPrefix, Bool.and_eq_true] at h
          obtain ⟨m, t, hst, hm⟩ := ih h.2
          exact ⟨d :: m, t, by simp [hst], by simp [ciEq, h.1, hm]⟩

/-- Running a block of literal tokens followed by `ts`: the subject
splits into a case-variant of the literals and a remainder matching
`ts`. -/
theorem likeRun_lits_append_iff (q : List Char) (ts : List LikeTok) (s : List Char) :
    likeRun (q.map .lit ++ ts) s = true ↔
      ∃ m t, s = m ++ t ∧ ciEq q m = true ∧ likeRun ts t = true := by
  induction q generalizing s with
  | nil =>
      simp only [List.map_nil, List.nil_append]
      constructor
      · intro h
        exact ⟨[], s, rfl, rfl, h⟩
      · rintro ⟨m, t, hst, hm, ht⟩
        cases m with
        | nil => simpa [hst] using ht
        | cons _ _ => simp [ciEq] at hm
  | cons c q' ih =>
      simp only [List.map_cons, List.cons_append]
      rw [likeRun_lit]
      cases s with
      | nil =>
          simp only [Bool.false_eq_true, false_iff]
          rintro ⟨m, t, hst, hm, -⟩
          cases m with
          | nil => simp [ciEq] at hm
          | cons _ _ => simp at hst
      | cons d s' =>
          simp only [Bool.and_eq_true]
          constructor
          · rintro ⟨hcd, h⟩
            obtain ⟨m, t, hst, hm, ht⟩ := (ih s').mp h
            exact ⟨d :: m, t, by simp [hst], by simp [ciEq, hcd, hm], ht⟩
          · rintro ⟨m, t, hst, hm, ht⟩
            cases m with
            | nil => simp [ciEq] at hm
            | cons e m' =>
                simp only [ciEq, Bool.and_eq_true] at hm
                simp only [List.cons_append, List.cons.injEq] at hst
                refine ⟨hst.1 ▸ hm.1, (ih s').mpr ⟨m', t, hst.2, hm.2, ht⟩⟩

/-- Literal tokens followed by a final `%`: an ASCII-case-insensitive
prefix match. -/
theorem likeRun_lits_pct (p s : List Char) :
    likeRun (p.map .lit ++ [.pct]) s = ciPrefix p s := by
  induction p generalizing s with
  | nil => simp [ciPrefix, likeRun_pct_end]
  | cons c p' ih =>
      simp only [List.map_cons, List.cons_append]
      rw [likeRun_lit]
      cases s with
      | nil => simp [ciPrefix]
      | cons d s' => simp [ciPrefix, ih]

/-- The `%…%` pattern built from the escaped image of `q` matches a
subject exactly when the subject contains an ASCII-case-variant of `q`.
This is the matching condition of `search_like` (and, with
`q = '@' :: target`, of the `find_mentions` pre-filter). -/
theorem likeM_contains_iff (q s : List Char) :
    likeM true ('%' :: (escapeChars q ++ ['%'])) s = true ↔ ciContains q s = true := by
  have htok : likeTokens true ('%' :: (escapeChars q ++ ['%'])) =
      .pct :: (q.map .lit ++ [.pct]) := by
    rw [likeTokens_pct, likeTokens_escapeChars]
    rfl
  rw [likeM, htok, likeRun_pct_iff]
  constructor
  · rintro ⟨i, hi⟩
    rw [likeRun_lits_pct] at hi
    rw [ciContains, List.any_eq_true]
    exact ⟨s.drop i, drop_mem_suffixes s i, hi⟩
  · intro h
    rw [ciContains, List.any_eq_true] at h
    obtain ⟨s', hs', hp⟩ := h
    obtain ⟨i, hi⟩ := mem_suffixes_eq_drop hs'
    exact ⟨i, by rw [likeRun_lits_pct, ← hi]; exact hp⟩

/-- Without wildcards in the prefix, the resolver's `LIKE '{p}%'`
pattern is exactly an ASCII-case-insensitive literal prefix match. -/
theorem likeM_prefix_iff {p : List Char} (hw : ∀ c ∈ p, c ≠ '%' ∧ c ≠ '_') (s : List Char) :
    likeM false (p ++ ['%']) s = ciPrefix p s := by
  rw [likeM, likeTokens_wildcardFree hw]
  have : likeTokens false ['%'] = [.pct] := rfl
  rw [this, likeRun_lits_pct]

/-! ## Lemmas: mention scanning -/

theorem firstOccur_some_prefix {n h : List Char} {j : Nat}
    (hj : firstOccur n h = some j) : n.isPrefixOf (h.drop j) = true := by
  induction h generalizing j with
  | nil =>
      simp only [firstOccur] at hj
      split at hj
      · next hemp =>
          cases hj
          cases n with
          | nil => rfl
          | cons _ _ => simp at hemp
      · cases hj
  | cons c rest ih =>
      simp only [firstOccur] at hj
      split at hj
      · next hpre =>
          cases hj
          simpa using hpre
      · next hpre =>
          rw [Option.map_eq_some'] at hj
          obtain ⟨i, hi, rfl⟩ := hj
          simpa [List.drop_succ_cons] using ih hi

theorem firstOccur_some_min {n h : List Char} {j : Nat}
    (hj : firstOccur n h = some j) :
    ∀ k, k < j → n.isPrefixOf (h.drop k) = false := by
  induction h generalizing j with
  | nil =>
      simp only [firstOccur] at hj
      split at hj
      · cases hj
        intro k hk
        exact absurd hk (by omega)
      · cases hj
  | cons c rest ih =>
      simp only [firstOccur] at hj
      split at hj
      · cases hj
        intro k hk
        exact absurd hk (by omega)
      · next hpre =>
          rw [Option.map_eq_some'] at hj
          obtain ⟨i, hi, rfl⟩ := hj
          intro k hk
          cases k with
          | zero =>
              simpa using Bool.eq_false_iff.mpr hpre
          | succ k' =>
              rw [List.drop_succ_cons]
              exact ih hi k' (by omega)

theorem firstOccur_le_of_occurrence {n h : List Char} {i : Nat}
    (hp : n.isPrefixOf (h.drop i) = true) :
    ∃ j, firstOccur n h = some j ∧ j ≤ i := by
  induction h generalizing i with
  | nil =>
      rw [List.drop_nil] at hp
      have hn : n.isEmpty = true := by
        cases n with
        | nil => rfl
        | cons _ _ => simp [List.isPrefixOf] at hp
      exact ⟨0, by simp only [firstOccur]; rw [if_pos hn], by omega⟩
  | cons c rest ih =>
      by_cases h0 : n.isPrefixOf (c :: rest) = true
      · exact ⟨0, by simp only [firstOccur]; rw [if_pos h0], by omega⟩
      · cases i with
        | zero => exact absurd hp h0
        | succ i' =>
            rw [List.drop_succ_cons] at hp
            obtain ⟨j, hj, hle⟩ := ih hp
            refine ⟨j + 1, ?_, by omega⟩
            simp only [firstOccur]
            rw [if_neg h0, hj]
            rfl

theorem firstOccur_none {n h : List Char} (hn : firstOccur n h = none) (i : Nat) :
    n.isPrefixOf (h.drop i) = false := by
  by_contra hc
  have hc' : n.isPrefixOf (h.drop i) = true := by simpa using hc
  obtain ⟨j, hj, -⟩ := firstOccur_le_of_occurrence hc'
  rw [hn] at hj
  cases hj

/-- The scanning loop accepts exactly when some position carries a
word-boundary-terminated occurrence, provided the fuel exceeds the
content length (each iteration drops at least one character). -/
theorem mentionLoopFuel_iff (mention : List Char) :
    ∀ (fuel : Nat) (content : List Char), content.length < fuel →
      (mentionLoopFuel mention fuel content = true ↔
        ∃ i, boundaryOkAt mention (content.drop i) = true) := by
  intro fuel
  induction fuel with
  | zero =>
      intro content h
      exact absurd h (by omega)
  | succ fuel ih =>
      intro content hlen
      rw [mentionLoopFuel]
      cases hocc : firstOccur mention content with
      | none =>
          simp only [Bool.false_eq_true, false_iff, not_exists]
          intro i hb
          rw [boundaryOkAt, Bool.and_eq_true] at hb
          rw [firstOccur_none hocc i] at hb
          exact absurd hb.1 (by simp)
      | some pos =>
          dsimp only
          have hpre := firstOccur_some_prefix hocc
          by_cases h1 : content.length ≤ pos + mention.length
          · rw [if_pos h1]
            simp only [true_iff]
            refine ⟨pos, ?_⟩
            rw [boundaryOkAt, Bool.and_eq_true]
            refine ⟨hpre, ?_⟩
            have hnil : (content.drop pos).drop mention.length = [] := by
              rw [List.drop_drop, List.drop_eq_nil_iff]
              omega
            rw [hnil]
          · rw [if_neg h1]
            have hlt : pos + mention.length < content.length := by omega
            have hdropeq : content.drop (pos + mention.length) =
                content[pos + mention.length] :: content.drop (pos + mention.length + 1) :=
              List.drop_eq_getElem_cons hlt
            have hgetD : content.getD (pos + mention.length) ' ' =
                content[pos + mention.length] := List.getD_eq_getElem content ' ' hlt
            by_cases h2 : isWordChar (content.getD (pos + mention.length) ' ') = false
            · rw [if_pos (show (!isWordChar (content.getD (pos + mention.length) ' ')) = true by rw [h2]; rfl)]
              simp only [true_iff]
              refine ⟨pos, ?_⟩
              rw [boundaryOkAt, Bool.and_eq_true]
              refine ⟨hpre, ?_⟩
              rw [List.drop_drop, hdropeq]
              rw [hgetD] at h2
              simp [h2]
            · have h2' : isWordChar (content.getD (pos + mention.length) ' ') = true := by
                cases hiw : isWordChar (content.getD (pos + mention.length) ' ') with
                | false => exact absurd hiw h2
                | true => rfl
              rw [if_neg (show ¬(!isWordChar (content.getD (pos + mention.length) ' ')) = true by rw [h2']; simp)]
              rw [ih (content.drop (pos + 1)) (by rw [List.length_drop]; omega)]
              constructor
              · rintro ⟨i, hb⟩
                rw [List.drop_drop] at hb
                exact ⟨pos + 1 + i, hb⟩
              · rintro ⟨j, hb⟩
                have hbpre : mention.isPrefixOf (content.drop j) = true := by
                  rw [boundaryOkAt, Bool.and_eq_true] at hb
                  exact hb.1
                have hjge : ¬ j < pos := by
                  intro hj
                  rw [firstOccur_some_min hocc j hj] at hbpre
                  cases hbpre
                have hjne : j ≠ pos := by
                  intro he
                  subst he
                  rw [boundaryOkAt, Bool.and_eq_true] at hb
                  have hb2 := hb.2
                  rw [List.drop_drop, hdropeq] at hb2
                  rw [hgetD] at h2'
                  simp [h2'] at hb2
                refine ⟨j - (pos + 1), ?_⟩
                rw [List.drop_drop]
                have harith : pos + 1 + (j - (pos + 1)) = j := by omega
                rw [harith]
                exact hb

/-- The boundary-scan loop of `filter_mention_boundary` is equivalent to
the existence of a word-boundary-terminated occurrence. -/
theorem mentionLoop_iff (mention content : List Char) :
    mentionLoop mention content = true ↔
      ∃ i, boundaryOkAt mention (content.drop i) = true :=
  mentionLoopFuel_iff mention (content.length + 1) content (by omega)

/-- `filter_mention_boundary`'s per-message check accepts exactly the
contents with a boundary-terminated `@target` occurrence. -/
theorem hasMentionBoundary_iff (target content : String) :
    hasMentionBoundary target content = true ↔ specMention target content :=
  mentionLoop_iff ('@' :: target.data) content.data

/-! ## Lemmas: result ordering and query membership -/

theorem mem_insertDesc {x r : MessageRow} {l : List MessageRow} :
    x ∈ insertDesc r l ↔ x = r ∨ x ∈ l := by
  induction l with
  | nil => simp [insertDesc]
  | cons y ys ih =>
      rw [insertDesc]
      split
      · simp
      · simp only [List.mem_cons, ih]
        tauto

theorem mem_sortDesc {x : MessageRow} {l : List MessageRow} :
    x ∈ sortDesc l ↔ x ∈ l := by
  induction l with
  | nil => simp [sortDesc]
  | cons y ys ih =>
      rw [sortDesc, mem_insertDesc]
      simp [ih]

theorem mem_insertAsc {x r : MessageRow} {l : List MessageRow} :
    x ∈ insertAsc r l ↔ x = r ∨ x ∈ l := by
  induction l with
  | nil => simp [insertAsc]
  | cons y ys ih =>
      rw [insertAsc]
      split
      · simp
      · simp only [List.mem_cons, ih]
        tauto

theorem mem_sortAsc {x : MessageRow} {l : List MessageRow} :
    x ∈ sortAsc l ↔ x ∈ l := by
  induction l with
  | nil => simp [sortAsc]
  | cons y ys ih =>
      rw [sortAsc, mem_insertAsc]
      simp [ih]

/-! ## Lemmas: the `LIKE` patterns the repository builds -/

theorem escapeChars_at_cons (t : List Char) :
    escapeChars ('@' :: t) = '@' :: escapeChars t := by
  rw [escapeChars, if_neg (by decide)]

theorem searchLike_pattern_data (q : String) :
    ("%" ++ escapeLike q ++ "%").data = '%' :: (escapeChars q.data ++ ['%']) := by
  simp [String.data_append, escapeLike]

theorem findMentions_pattern_data (t : String) :
    ("%@" ++ escapeLike t ++ "%").data = '%' :: (escapeChars ('@' :: t.data) ++ ['%']) := by
  rw [escapeChars_at_cons]
  simp [String.data_append, escapeLike]

/-- The matching condition of `search_like`: ASCII-case-insensitive
containment of the query, with any `%`, `_`, `\` in the query literal. -/
theorem searchLike_match_iff (q content : String) :
    sqlLikeEsc ("%" ++ escapeLike q ++ "%") content = true ↔
      ciContains q.data content.data = true := by
  rw [sqlLikeEsc, searchLike_pattern_data]
  exact likeM_contains_iff q.data content.data

/-- The matching condition of the `find_mentions` pre-filter. -/
theorem mention_prefilter_iff (t content : String) :
    sqlLikeEsc ("%@" ++ escapeLike t ++ "%") content = true ↔
      ciContains ('@' :: t.data) content.data = true := by
  rw [sqlLikeEsc, findMentions_pattern_data]
  exact likeM_contains_iff ('@' :: t.data) content.data

/-- A boundary-confirmed mention implies the pre-filter's containment
condition: the `LIKE` pre-filter is an over-approximation and never
discards a true mention. -/
theorem specMention_ciContains {t content : String} (h : specMention t content) :
    ciContains ('@' :: t.data) content.data = true := by
  obtain ⟨i, hb⟩ := h
  rw [boundaryOkAt, Bool.and_eq_true] at hb
  have hpre := hb.1
  rw [List.isPrefixOf_iff_prefix] at hpre
  obtain ⟨rest, hrest⟩ := hpre
  rw [ciContains, List.any_eq_true]
  refine ⟨content.data.drop i, drop_mem_suffixes _ i, ?_⟩
  rw [← hrest]
  exact ciPrefix_append_of_ciEq (ciEq_refl _) rest

/-! ## Concrete fixtures used by counterexamples, witnesses and checks -/

def rowAbc : MessageRow :=
  { id := "m1", thread_id := "t1", session_id := none, sender := none,
    role := "user", content := "abc", metadata := none, parent_id := none,
    source := none, created_at := 0, updated_at := 0 }

def stAbc : Store := { threads := [], messages := [rowAbc] }

def rowPct : MessageRow := { rowAbc with id := "m2", content := "costs 100% done" }
def rowFile : MessageRow := { rowAbc with id := "m3", content := "see file_name.txt" }
def rowMention : MessageRow := { rowAbc with id := "m4", content := "hi @alice!" }
def rowNoMention : MessageRow := { rowAbc with id := "m5", content := "hi @alicex" }

example : searchLike "100%" none { threads := [], messages := [rowPct] } =
    [rowToMessage rowPct] := rfl
example : searchLike "file_name" none { threads := [], messages := [rowFile] } =
    [rowToMessage rowFile] := rfl
example : searchLike "100%" none stAbc = [] := rfl
example : findMentions none "alice" { threads := [], messages := [rowMention, rowNoMention] } =
    [rowToMessage rowMention] := rfl

/-! ## Claim theorems -/

/-- C5, counterexample: the claim says `search_like` matches the query
"as a case-sensitive contains pattern", but SQLite `LIKE` is
ASCII-case-insensitive by default (and the source never issues
`PRAGMA case_sensitive_like`): the query `"ABC"` finds a message whose
content is `"abc"`, which a case-sensitive containment check rejects. -/
theorem searchLike_not_case_sensitive :
    searchLike "ABC" none stAbc = [rowToMessage rowAbc] ∧
      csContains "ABC".data "abc".data = false :=
  ⟨rfl, rfl⟩

/-- C5 (amended): in the substring-fallback mode, `%`, `_` and the
escape character in the query are literal, and the query is matched as
an ASCII-case-insensitive "contains" pattern: a message is returned
exactly when it passes the optional thread filter and its content
contains a case-variant of the query. -/
theorem searchLike_mem_iff (q : String) (tid : Option String) (st : Store) (m : Message) :
    m ∈ searchLike q tid st ↔
      ∃ r ∈ st.messages, m = rowToMessage r ∧ threadFilter tid r = true ∧
        ciContains q.data r.content.data = true := by
  simp only [searchLike, List.mem_map, mem_sortDesc, List.mem_filter, Bool.and_eq_true,
    searchLike_match_iff]
  constructor
  · rintro ⟨r, ⟨hr, hlike, hth⟩, rfl⟩
    exact ⟨r, hr, rfl, hth, hlike⟩
  · rintro ⟨r, hr, rfl, hth, hci⟩
    exact ⟨r, ⟨hr, hci, hth⟩, rfl⟩

/-- C3: `find_mentions` returns a message exactly when it passes the
optional thread filter and its content has an `@` immediately followed
by the target with the next character absent or neither alphanumeric nor
underscore; `count_mentions` counts exactly the returned messages. -/
theorem findMentions_mem_iff (tid : Option String) (target : String) (st : Store) :
    (∀ m : Message, m ∈ findMentions tid target st ↔
      (∃ r ∈ st.messages, m = rowToMessage r ∧ threadFilter tid r = true) ∧
        specMention target m.content) ∧
    countMentions tid target st = (findMentions tid target st).length := by
  refine ⟨fun m => ?_, rfl⟩
  simp only [findMentions, filterMentionBoundary, List.mem_filter, List.mem_map,
    mem_sortDesc, Bool.and_eq_true]
  constructor
  · rintro ⟨⟨r, ⟨hr, hlike, hth⟩, rfl⟩, hbd⟩
    exact ⟨⟨r, hr, rfl, hth⟩, (hasMentionBoundary_iff _ _).mp hbd⟩
  · rintro ⟨⟨r, hr, rfl, hth⟩, hspec⟩
    refine ⟨⟨r, ⟨hr, ?_, hth⟩, rfl⟩, (hasMentionBoundary_iff _ _).mpr hspec⟩
    exact (mention_prefilter_iff target r.content).mpr (specMention_ciContains hspec)

/-- A failing sequential insert decomposes as: a successfully inserted
prefix, then the first failing message, whose error is the one
reported. -/
theorem insertAll_error_split {msgs : List Message} {st : Store} {e : DomainError}
    (h : insertAll msgs st = .error e) :
    ∃ pre mid post st', msgs = pre ++ mid :: post ∧ insertAll pre st = .ok st' ∧
      insertMessage mid st' = .error e := by
  induction msgs generalizing st with
  | nil => simp [insertAll] at h
  | cons m rest ih =>
      rw [insertAll] at h
      cases him : insertMessage m st with
      | ok st1 =>
          simp only [him] at h
          obtain ⟨pre, mid, post, st', h1, h2, h3⟩ := ih h
          refine ⟨m :: pre, mid, post, st', by simp [h1], ?_, h3⟩
          rw [insertAll, him]
          exact h2
      | error e' =>
          simp only [him] at h
          cases h
          exact ⟨[], m, rest, st, rfl, rfl, him⟩

/-- C1: `insert_batch` is atomic.  If any insert fails, the
post-transaction store is exactly the pre-transaction store (the
rollback), the error returned is the error of the first failing insert,
and no message of the batch that was absent before is present
afterwards. -/
theorem insertBatch_atomic (msgs : List Message) (st : Store) (e : DomainError)
    (hfail : (insertBatch msgs st).1 = .error e) :
    (insertBatch msgs st).2 = st ∧
      (∃ pre mid post st', msgs = pre ++ mid :: post ∧
          insertAll pre st = .ok st' ∧ insertMessage mid st' = .error e) ∧
      (∀ m ∈ msgs, insertViolatesUnique m st = false →
        (insertBatch msgs st).2.messages.any (fun r => r.id == m.id) = false) := by
  rw [insertBatch] at hfail ⊢
  cases hall : insertAll msgs st with
  | ok st' =>
      rw [hall] at hfail
      cases hfail
  | error e' =>
      rw [hall] at hfail
      simp only at hfail
      cases hfail
      refine ⟨rfl, insertAll_error_split hall, ?_⟩
      intro m _ hfresh
      exact hfresh

/-- C1 success side: when every insert succeeds, the batch commits and
reports the batch size. -/
theorem insertBatch_commits (msgs : List Message) (st st' : Store)
    (hok : insertAll msgs st = .ok st') :
    insertBatch msgs st = (.ok msgs.length, st') := by
  rw [insertBatch, hok]

def msgA : Message :=
  { id := "aa11", thread_id := "t1", session_id := none, sender := none,
    role := .user, content := "first", metadata := none, parent_id := none,
    source := none, created_at := 0, updated_at := 0 }

def msgA2 : Message := { msgA with content := "second" }

def stEmpty : Store := { threads := [], messages := [] }

/-- C1 witness: a batch whose second message reuses the first's id fails
its second insert, and the resulting store is the untouched original. -/
theorem insertBatch_atomic_witness :
    (insertBatch [msgA, msgA2] stEmpty).1 =
        .error (.database "failed to insert message: UNIQUE constraint failed: messages.id") ∧
      (insertBatch [msgA, msgA2] stEmpty).2 = stEmpty :=
  ⟨rfl, (insertBatch_atomic [msgA, msgA2] stEmpty _ rfl).1⟩

def rowAb : MessageRow := { rowAbc with id := "ab" }
def stAb : Store := { threads := [], messages := [rowAb] }

/-- C2, counterexample: the claim reads "has prefix p" as a literal
(case-sensitive) prefix.  The resolver runs `id LIKE '{p}%'` with no
`ESCAPE` clause, and SQLite `LIKE` is ASCII-case-insensitive: for the
stored id `"ab"`, the prefix `"A"` matches and the resolver returns the
id, although zero stored ids literally start with `"A"` (where the claim
demands `NotFound`). -/
theorem resolveShortIdMessage_counterexample :
    resolveShortIdMessage stAb "A" = .ok "ab" ∧ litPrefix "A".data "ab".data = false :=
  ⟨rfl, rfl⟩

/-- C2 (amended): `resolve_short_id` collects the stored message ids
matching `p` as a `LIKE` prefix pattern (`p` followed by `%`, ASCII-case-
insensitive, `%`/`_` inside `p` keeping their wildcard meaning) and
returns `NotFound p` for zero matches, the unique id for one match
(including a prefix equal to a full id), and `AmbiguousPrefix` with the
match count otherwise; for wildcard-free prefixes the match relation is
exactly ASCII-case-insensitive literal prefix.  The resolver is a pure
function of the store. -/
theorem resolveShortIdMessage_spec (st : Store) (p : String) :
    (((st.messages.filter (fun r => sqlLike (p ++ "%") r.id)).map (fun r => r.id)) = [] →
        resolveShortIdMessage st p = .error (.messageNotFound p)) ∧
    (∀ i, ((st.messages.filter (fun r => sqlLike (p ++ "%") r.id)).map (fun r => r.id)) = [i] →
        resolveShortIdMessage st p = .ok i) ∧
    (∀ i j rest,
        ((st.messages.filter (fun r => sqlLike (p ++ "%") r.id)).map (fun r => r.id))
            = i :: j :: rest →
        resolveShortIdMessage st p = .error (.ambiguousShortId p (rest.length + 2))) ∧
    ((∀ c ∈ p.data, c ≠ '%' ∧ c ≠ '_') →
        ∀ id : String, sqlLike (p ++ "%") id = ciPrefix p.data id.data) := by
  refine ⟨?_, ?_, ?_, ?_⟩
  · intro h
    simp only [resolveShortIdMessage]
    rw [h]
  · intro i h
    simp only [resolveShortIdMessage]
    rw [h]
  · intro i j rest h
    simp only [resolveShortIdMessage]
    rw [h]
    simp
  · intro hw id
    rw [sqlLike]
    have hd : (p ++ "%").data = p.data ++ ['%'] := by simp [String.data_append]
    rw [hd]
    exact likeM_prefix_iff hw id.data

/-- C2 witness: one stored id `"ab"`; the prefix `"a"` resolves to it,
and for the wildcard-free prefix `"AB"` the `LIKE` relation coincides
with case-insensitive literal prefix. -/
theorem resolveShortIdMessage_spec_witness :
    resolveShortIdMessage stAb "a" = .ok "ab" ∧
      sqlLike ("AB" ++ "%") "ab" = ciPrefix "AB".data "ab".data :=
  ⟨(resolveShortIdMessage_spec stAb "a").2.1 "ab" rfl,
   (resolveShortIdMessage_spec stAb "AB").2.2.2 (by decide) "ab"⟩

def thrAxc : ThreadRow :=
  { id := "axc", name := none, title := "t", source_url := none,
    created_at := 0, updated_at := 0 }

def stAxc : Store := { threads := [thrAxc], messages := [] }

/-- C6, counterexample: the claim says wildcard characters in the
supplied prefix have no special meaning and matching is case-sensitive.
The resolver interpolates the prefix unescaped into `LIKE '{p}%'`, so
`_` in the prefix matches any character: `"a_c"` resolves to the stored
thread id `"axc"`, which does not literally start with `"a_c"`. -/
theorem resolveShortIdThread_counterexample :
    resolveShortIdThread stAxc "a_c" = .ok "axc" ∧ litPrefix "a_c".data "axc".data = false :=
  ⟨rfl, rfl⟩

/-- C6 (amended): thread short-id matching is the `LIKE` pattern
`p` followed by `%`: ASCII-case-insensitive, with `%`/`_` inside `p`
acting as wildcards; on wildcard-free prefixes it is exactly an ASCII-
case-insensitive literal prefix match, and the resolver dispatches on
the match count as in the spec. -/
theorem resolveShortIdThread_spec (st : Store) (p : String) :
    (((st.threads.filter (fun t => sqlLike (p ++ "%") t.id)).map (fun t => t.id)) = [] →
        resolveShortIdThread st p = .error (.threadNotFound p)) ∧
    (∀ i, ((st.threads.filter (fun t => sqlLike (p ++ "%") t.id)).map (fun t => t.id)) = [i] →
        resolveShortIdThread st p = .ok i) ∧
    (∀ i j rest,
        ((st.threads.filter (fun t => sqlLike (p ++ "%") t.id)).map (fun t => t.id))
            = i :: j :: rest →
        resolveShortIdThread st p = .error (.ambiguousShortId p (rest.length + 2))) ∧
    ((∀ c ∈ p.data, c ≠ '%' ∧ c ≠ '_') →
        ∀ id : String, sqlLike (p ++ "%") id = ciPrefix p.data id.data) := by
  refine ⟨?_, ?_, ?_, ?_⟩
  · intro h
    simp only [resolveShortIdThread]
    rw [h]
  · intro i h
    simp only [resolveShortIdThread]
    rw [h]
  · intro i j rest h
    simp only [resolveShortIdThread]
    rw [h]
    simp
  · intro hw id
    rw [sqlLike]
    have hd : (p ++ "%").data = p.data ++ ['%'] := by simp [String.data_append]
    rw [hd]
    exact likeM_prefix_iff hw id.data

/-- C6 witness: the stored thread id `"axc"` resolves from the prefix
`"ax"`, and for the wildcard-free prefix `"AX"` the `LIKE` relation
coincides with case-insensitive literal prefix. -/
theorem resolveShortIdThread_spec_witness :
    resolveShortIdThread stAxc "ax" = .ok "axc" ∧
      sqlLike ("AX" ++ "%") "axc" = ciPrefix "AX".data "axc".data :=
  ⟨(resolveShortIdThread_spec stAxc "ax").2.1 "axc" rfl,
   (resolveShortIdThread_spec stAxc "AX").2.2.2 (by decide) "axc"⟩

/-- C7: `by_age(days)` computes the cutoff `now - days` and deletes
exactly the rows with `created_at` strictly below it (at the second
precision of persistence), returning the removed-row count; in
particular `by_age(0)` removes every message whose persisted
`created_at` precedes the call instant. -/
theorem cleanupByAge_spec (days now : Int) (st : Store) :
    (cleanupByAge days now st).2.messages =
        st.messages.filter (fun r => !(r.created_at < now - days * secondsPerDay)) ∧
    (cleanupByAge days now st).1 =
        st.messages.countP (fun r => r.created_at < now - days * secondsPerDay) ∧
    (∀ r ∈ st.messages, r.created_at < now → r ∉ (cleanupByAge 0 now st).2.messages) := by
  refine ⟨rfl, rfl, ?_⟩
  intro r hr hlt hmem
  simp only [cleanupByAge, deleteOlderThan, List.mem_filter] at hmem
  have h2 := hmem.2
  simp only [Bool.not_eq_true', decide_eq_false_iff_not, not_lt] at h2
  omega

def rowOld : MessageRow := { rowAbc with id := "m7", created_at := 50 }
def stOld : Store := { threads := [], messages := [rowOld] }

/-- C7 witness: a message persisted at second 50 is removed by
`by_age(0)` called at second 100. -/
theorem cleanupByAge_spec_witness :
    rowOld ∉ (cleanupByAge 0 100 stOld).2.messages :=
  (cleanupByAge_spec 0 100 stOld).2.2 rowOld (by simp [stOld]) (by decide)

/-- C8: `update_content` fails with `MessageNotFound` and leaves the
store untouched when no message has the given id; otherwise it succeeds,
every message with a different id is unchanged, and the target message
keeps every field except `content` (set to the new content) and
`updated_at` (set to the current instant). -/
theorem updateContent_spec (id content : String) (now : Int) (st : Store) :
    ((∀ r ∈ st.messages, r.id ≠ id) →
        updateContent id content now st = (.error (.messageNotFound id), st)) ∧
    ((∃ r ∈ st.messages, r.id = id) → (updateContent id content now st).1 = .ok ()) ∧
    (∀ r ∈ st.messages, r.id ≠ id → r ∈ (updateContent id content now st).2.messages) ∧
    (∀ r ∈ st.messages, r.id = id →
        { r with content := content, updated_at := now } ∈
          (updateContent id content now st).2.messages) := by
  have hsnd : (updateContent id content now st).2.messages =
      st.messages.map
        (fun r => if r.id == id then { r with content := content, updated_at := now } else r) := by
    simp only [updateContent]
    split <;> rfl
  refine ⟨?_, ?_, ?_, ?_⟩
  · intro habs
    have hcount : st.messages.countP (fun r => r.id == id) = 0 :=
      List.countP_eq_zero.mpr (fun a ha => by simp [habs a ha])
    have hmap : st.messages.map
        (fun r => if r.id == id then { r with content := content, updated_at := now } else r) =
          st.messages := by
      conv_rhs => rw [← List.map_id st.messages]
      exact List.map_congr_left (fun a ha => by simp [habs a ha])
    simp only [updateContent, hcount]
    rw [if_pos (by decide), hmap]
  · rintro ⟨r, hr, hid⟩
    have hcount : st.messages.countP (fun r => r.id == id) ≠ 0 := by
      intro h0
      exact List.countP_eq_zero.mp h0 r hr (by simp [hid])
    simp only [updateContent]
    rw [if_neg (by simpa using hcount)]
  · intro r hr hne
    rw [hsnd]
    exact List.mem_map.mpr ⟨r, hr, by simp [hne]⟩
  · intro r hr hid
    rw [hsnd]
    exact List.mem_map.mpr ⟨r, hr, by simp [hid]⟩

def rowU8 : MessageRow := { rowAbc with id := "m8", content := "old", updated_at := 1 }
def rowU8other : MessageRow := { rowAbc with id := "m8b", content := "keep" }
def stU8 : Store := { threads := [], messages := [rowU8, rowU8other] }

/-- C8 witness: updating a missing id fails and leaves the two-row store
unchanged; updating `"m8"` succeeds, rewrites its content and
`updated_at`, and leaves the other row untouched. -/
theorem updateContent_spec_witness :
    updateContent "zz" "x" 9 stU8 = (.error (.messageNotFound "zz"), stU8) ∧
      (updateContent "m8" "new" 9 stU8).1 = .ok () ∧
      rowU8other ∈ (updateContent "m8" "new" 9 stU8).2.messages ∧
      { rowU8 with content := "new", updated_at := 9 } ∈
        (updateContent "m8" "new" 9 stU8).2.messages :=
  ⟨(updateContent_spec "zz" "x" 9 stU8).1 (by decide),
   (updateContent_spec "m8" "new" 9 stU8).2.1 ⟨rowU8, by simp [stU8], rfl⟩,
   (updateContent_spec "m8" "new" 9 stU8).2.2.1 rowU8other (by simp [stU8]) (by decide),
   (updateContent_spec "m8" "new" 9 stU8).2.2.2 rowU8 (by simp [stU8]) rfl⟩

/-- C9: the thread store's `delete` fails with `ThreadNotFound` (leaving
the store unchanged) when the id is absent; it never touches the
`messages` table, so the deleted thread's messages remain; when the id
exists it succeeds and removes exactly the rows with that id from
`threads`. -/
theorem threadDelete_spec (id : String) (st : Store) :
    ((∀ t ∈ st.threads, t.id ≠ id) →
        threadDelete id st = (.error (.threadNotFound id), st)) ∧
    ((threadDelete id st).2.messages = st.messages) ∧
    ((∃ t ∈ st.threads, t.id = id) → (threadDelete id st).1 = .ok ()) ∧
    (∀ t ∈ st.threads, t.id ≠ id → t ∈ (threadDelete id st).2.threads) ∧
    (∀ t ∈ (threadDelete id st).2.threads, t.id ≠ id ∧ t ∈ st.threads) := by
  have hsnd : (threadDelete id st).2.threads = st.threads.filter (fun t => !(t.id == id)) := by
    simp only [threadDelete]
    split <;> rfl
  refine ⟨?_, ?_, ?_, ?_, ?_⟩
  · intro habs
    have hcount : st.threads.countP (fun t => t.id == id) = 0 :=
      List.countP_eq_zero.mpr (fun a ha => by simp [habs a ha])
    have hfil : st.threads.filter (fun t => !(t.id == id)) = st.threads :=
      List.filter_eq_self.mpr (fun a ha => by simp [habs a ha])
    simp only [threadDelete, hcount]
    rw [if_pos (by decide), hfil]
  · simp only [threadDelete]
    split <;> rfl
  · rintro ⟨t, ht, hid⟩
    have hcount : st.threads.countP (fun t => t.id == id) ≠ 0 := by
      intro h0
      exact List.countP_eq_zero.mp h0 t ht (by simp [hid])
    simp only [threadDelete]
    rw [if_neg (by simpa using hcount)]
  · intro t ht hne
    rw [hsnd]
    exact List.mem_filter.mpr ⟨ht, by simp [hne]⟩
  · intro t ht
    rw [hsnd] at ht
    have := List.mem_filter.mp ht
    exact ⟨by simpa using this.2, this.1⟩

def thrT9 : ThreadRow := { thrAxc with id := "t1" }
def rowT9 : MessageRow := { rowAbc with id := "m9", thread_id := "t1" }
def stT9 : Store := { threads := [thrT9], messages := [rowT9] }

/-- C9 witness: deleting thread `"t1"` succeeds and its stored message
is still present afterwards; deleting a missing id fails and changes
nothing. -/
theorem threadDelete_spec_witness :
    (threadDelete "t1" stT9).1 = .ok () ∧
      (threadDelete "t1" stT9).2.messages = [rowT9] ∧
      threadDelete "zz" stT9 = (.error (.threadNotFound "zz"), stT9) :=
  ⟨(threadDelete_spec "t1" stT9).2.2.1 ⟨thrT9, by simp [stT9], rfl⟩,
   (threadDelete_spec "t1" stT9).2.1,
   (threadDelete_spec "zz" stT9).1 (by decide)⟩

/-- C10: the row-to-entity conversion used by every message reader is
total in the stored role and metadata: an unparseable role silently
becomes `User`, unparseable metadata silently becomes `none`, and every
reader (`find_by_id`, `find_by_thread`, `list_recent`, `search`'s
fallback, `find_mentions`) only ever emits conversions of stored rows —
no row causes an error through these two fields. -/
theorem readers_total_on_malformed (st : Store) :
    (∀ r : MessageRow, parseRole r.role = none → (rowToMessage r).role = .user) ∧
    (∀ (r : MessageRow) (s : String), r.metadata = some s → parseJson s = none →
        (rowToMessage r).metadata = none) ∧
    (∀ id m, findMessageById id st = some m → ∃ r ∈ st.messages, m = rowToMessage r) ∧
    (∀ tid m, m ∈ findByThread tid st → ∃ r ∈ st.messages, m = rowToMessage r) ∧
    (∀ lim m, m ∈ listRecent lim st → ∃ r ∈ st.messages, m = rowToMessage r) ∧
    (∀ q tid m, m ∈ searchLike q tid st → ∃ r ∈ st.messages, m = rowToMessage r) ∧
    (∀ tgt tid m, m ∈ findMentions tid tgt st → ∃ r ∈ st.messages, m = rowToMessage r) := by
  refine ⟨?_, ?_, ?_, ?_, ?_, ?_, ?_⟩
  · intro r h
    simp [rowToMessage, h]
  · intro r s hm hp
    simp [rowToMessage, hm, hp]
  · intro id m h
    rw [findMessageById, Option.map_eq_some'] at h
    obtain ⟨r, hfind, hr⟩ := h
    exact ⟨r, List.mem_of_find?_eq_some hfind, hr.symm⟩
  · intro tid m h
    simp only [findByThread, List.mem_map, mem_sortAsc, List.mem_filter] at h
    obtain ⟨r, ⟨hr, -⟩, he⟩ := h
    exact ⟨r, hr, he.symm⟩
  · intro lim m h
    simp only [listRecent, List.mem_map] at h
    obtain ⟨r, hr, he⟩ := h
    have := mem_sortDesc.mp (List.take_subset lim _ hr)
    exact ⟨r, this, he.symm⟩
  · intro q tid m h
    simp only [searchLike, List.mem_map, mem_sortDesc, List.mem_filter] at h
    obtain ⟨r, ⟨hr, -⟩, he⟩ := h
    exact ⟨r, hr, he.symm⟩
  · intro tgt tid m h
    simp only [findMentions, filterMentionBoundary, List.mem_filter, List.mem_map,
      mem_sortDesc] at h
    obtain ⟨⟨r, ⟨hr, -⟩, he⟩, -⟩ := h
    exact ⟨r, hr, he.symm⟩

def rowBadRole : MessageRow :=
  { rowAbc with id := "m10", role := "banana", metadata := some "not json" }

/-- C10 witness: a stored role `"banana"` is read back as `User`, and
stored metadata `"not json"` is read back as absent, with no error. -/
theorem readers_total_on_malformed_witness :
    (rowToMessage rowBadRole).role = .user ∧ (rowToMessage rowBadRole).metadata = none :=
  ⟨(readers_total_on_malformed stEmpty).1 rowBadRole (by decide),
   (readers_total_on_malformed stEmpty).2.1 rowBadRole "not json" rfl rfl⟩

end Aiboard
